import Mathlib

set_option maxRecDepth 100000

/-!
Verification of the splitspeech audio core: a shallow embedding of
`segment.cpp` (`FindSegmentsInAudioWaveform`), `normalize.cpp`
(`NormalizeAudioWaveform`) and the sample conversion of
`waveform.cpp` (`Waveform::WriteToWAVFile`), together with theorems
settling the specification's claims about them.

Modelling conventions:
* C++ `float`/`double` arithmetic is idealised as exact rational
  arithmetic (`ℚ`); decimal literals such as `0.05`, `1.05`, `0.02`
  denote the exact rationals `1/20`, `21/20`, `1/50`.
* `sqrtf` never appears directly: the only use in `segment.cpp` is the
  comparison `stddev < threshold` with both sides nonnegative, which is
  equivalent to comparing the squares, so the embedding carries the
  squared standard deviation and the squared threshold.
* The chunk-size computations `(unsigned)(freq * 0.05)` and
  `(unsigned)(freq * 0.01f)` are the truncations `freq / 20` and
  `freq / 100` (natural division).
* C++ integer division by zero is undefined behaviour; a run that would
  divide by zero is modelled as `none`.  All other unsigned subtractions
  performed by the code (`tick - recent_loud`, `tick - segment_started_tick`)
  are proved below to never wrap, so natural subtraction is faithful.
-/

namespace SplitSpeech

/-- The waveform container of `waveform.h`: a sample frequency in Hertz and
a buffer of (float) audio samples. -/
structure Waveform where
  m_frequency : ℕ
  m_data : List ℚ
  deriving DecidableEq

/-- A segment of the waveform, as produced by `segment.cpp`:
a starting sample index and a sample count. -/
structure Segment where
  m_start : ℕ
  m_count : ℕ
  deriving DecidableEq

/-- `Waveform::FindMinMaxSamples` of `waveform.cpp`: smallest and largest
sample value, `(0, 0)` for an empty buffer. -/
def FindMinMaxSamples (data : List ℚ) : ℚ × ℚ :=
  match data with
  | [] => (0, 0)
  | x :: xs => (xs.foldl min x, xs.foldl max x)

/-- The square of `standard_deviation` of `segment.cpp` (population standard
deviation): mean of the data, then mean squared deviation from the mean.
`segment.cpp` only ever compares the standard deviation against a
nonnegative threshold, so the square is the faithful computable carrier. -/
def standard_deviation_sq (data : List ℚ) : ℚ :=
  if data.length < 1 then 0
  else
    let mean := data.sum / (data.length : ℚ)
    ((data.map (fun x => (x - mean) ^ 2)).sum) / (data.length : ℚ)

/-- The chunk of `spc` samples starting at sample `i * spc`. -/
def chunk_of (data : List ℚ) (spc i : ℕ) : List ℚ :=
  (data.drop (i * spc)).take spc

/-- `stddev_per_chunk[i]` of `segment.cpp`: squared standard deviation of
chunk `i` (chunks of `freq / 20` samples, i.e. `(unsigned)(freq * 0.05)`). -/
def stddev_per_chunk (wav : Waveform) (i : ℕ) : ℚ :=
  standard_deviation_sq (chunk_of wav.m_data (wav.m_frequency / 20) i)

/-- The square of `stddev_threshold` of `segment.cpp`:
`((max - min) / 2 * 0.05)^2`. -/
def stddev_threshold_sq (wav : Waveform) : ℚ :=
  let mm := FindMinMaxSamples wav.m_data
  (((mm.2 - mm.1) / 2) * (1 / 20)) ^ 2

/-- The window classification of `segment.cpp` (lines 120-128): position `j`
of the trailing window is quiet by convention unless `j > 0`, in which case
chunk `j` is quiet iff its standard deviation is below the threshold
(squared comparison, see module docstring). -/
def chunk_quiet (sdsq : ℕ → ℚ) (thrsq : ℚ) (j : ℤ) : Bool :=
  if 0 < j then decide (sdsq j.toNat < thrsq) else true

/-- The inner loop of `segment.cpp` (lines 117-129): walk the 10 window
positions `tick, tick-1, ..., tick-9` and count `(recent_quiet, recent_loud)`. -/
def recentCounts (sdsq : ℕ → ℚ) (thrsq : ℚ) (tick : ℕ) : ℕ × ℕ :=
  (List.range 10).foldl
    (fun (c : ℕ × ℕ) (k : ℕ) =>
      if chunk_quiet sdsq thrsq ((tick : ℤ) - (k : ℤ)) then (c.1 + 1, c.2)
      else (c.1, c.2 + 1))
    (0, 0)

/-- One iteration of the tick loop of `segment.cpp` (lines 115-146), acting on
the state `(list, segment_started_tick)`.  Constants from the source:
`recent_count = 10` (inside `recentCounts`), `louds_to_start = 3`,
`quiets_to_stop = 8`. -/
def segStep (sdsq : ℕ → ℚ) (thrsq : ℚ) (spc nc : ℕ)
    (st : List Segment × ℕ) (tick : ℕ) : List Segment × ℕ :=
  let rc := recentCounts sdsq thrsq tick
  if st.2 = 0 ∧ 3 ≤ rc.2 then
    (st.1, tick - rc.2)
  else if st.2 ≠ 0 ∧ (8 ≤ rc.1 ∨ tick = nc - 1) then
    (st.1 ++ [⟨st.2 * spc, (tick - st.2) * spc⟩], 0)
  else st

/-- `FindSegmentsInAudioWaveform` of `segment.cpp`.  When
`samples_per_chunk = (unsigned)(freq * 0.05)` is zero the C++ computation
`m_data.size() / samples_per_chunk` divides by zero (undefined behaviour),
modelled as `none`. -/
def FindSegmentsInAudioWaveform (wav : Waveform) : Option (List Segment) :=
  let spc := wav.m_frequency / 20
  if spc = 0 then none
  else
    let nc := wav.m_data.length / spc
    some (((List.range nc).foldl
      (segStep (stddev_per_chunk wav) (stddev_threshold_sq wav) spc nc)
      ([], 0)).1)

/-- Ordering relation between adjacent output segments: strictly increasing
starts, with an overlap of at most two chunks. -/
def segRel (spc : ℕ) (x y : Segment) : Prop :=
  x.m_start < y.m_start ∧ x.m_start + x.m_count ≤ y.m_start + 2 * spc

/-- Invariant of the tick loop of `segment.cpp` at the state `st` entering
tick `t` (`rl` is the recent-loud count as a function of the tick):
the emitted list is `segRel`-chained and well formed, the last emitted
segment ends on a chunk boundary at a close tick `b` reached either with at
most 2 loud window positions or at the forced end-of-buffer close, and an
open segment start `st.2` is at least 4 ticks old and compatible with the
last emitted segment. -/
def SegLoopInv (rl : ℕ → ℕ) (spc nc t : ℕ) (st : List Segment × ℕ) : Prop :=
  List.Chain' (segRel spc) st.1 ∧
  (∀ x ∈ st.1, 0 < x.m_count ∧ x.m_start + x.m_count ≤ (nc - 1) * spc) ∧
  (∀ z ∈ st.1.getLast?, ∃ a b : ℕ,
      z.m_start = a * spc ∧ z.m_start + z.m_count = b * spc ∧
      a + 4 ≤ b ∧ b + 1 ≤ nc ∧ b < t ∧ (rl b ≤ 2 ∨ b = nc - 1)) ∧
  (st.2 ≠ 0 → st.2 + 4 ≤ t ∧
      ∀ z ∈ st.1.getLast?, ∃ a b : ℕ,
        z.m_start = a * spc ∧ z.m_start + z.m_count = b * spc ∧
        a < st.2 ∧ b ≤ st.2 + 2)

/-- `local_peak` of `normalize.cpp` (lines 82-88): maximum absolute sample
value, starting from `0`. -/
def local_peak (data : List ℚ) : ℚ :=
  data.foldl (fun acc x => max acc |x|) 0

/-- The release step of `normalize.cpp` (lines 92-93): if the chunk peak is
below the target and the gain is below `100`, multiply the gain by `1.05`. -/
def releaseGain (max_vol gain peak : ℚ) : ℚ :=
  if peak < max_vol ∧ gain < 100 then gain * (21 / 20) else gain

/-- The per-chunk gain update of `normalize.cpp` (lines 92-103): the release
step followed by the attack step (`gain := max_vol / max(peak, 0.02)` when the
released gain would push the chunk peak above the target). -/
def gainStep (max_vol gain peak : ℚ) : ℚ :=
  let g1 := releaseGain max_vol gain peak
  if max_vol < peak * g1 then
    if peak < 1 / 50 then max_vol / (1 / 50) else max_vol / peak
  else g1

/-- The in-place write loop of `normalize.cpp` (lines 112-113): multiply the
samples with indices in `[i0, i0 + count)` by `g`, leaving the rest alone. -/
def scaleRange (data : List ℚ) (g : ℚ) (i0 count : ℕ) : List ℚ :=
  (List.range data.length).map
    (fun i => if i0 ≤ i ∧ i < i0 + count then data.getD i 0 * g else data.getD i 0)

/-- One iteration of the chunk loop of `normalize.cpp` (lines 78-114), acting
on the state `(m_data, gain)`: read the chunk peak from the current buffer,
update the gain, scale the chunk in place (the last chunk absorbs the
trailing remainder). -/
def normStep (max_vol : ℚ) (spc nc : ℕ) (st : List ℚ × ℚ) (chunk : ℕ) :
    List ℚ × ℚ :=
  let isample := chunk * spc
  let peak := local_peak ((st.1.drop isample).take spc)
  let g := gainStep max_vol st.2 peak
  let count := if chunk = nc - 1 then st.1.length - isample else spc
  (scaleRange st.1 g isample count, g)

/-- `NormalizeAudioWaveform` of `normalize.cpp`.  The source computes
`max_vol = db_to_linear(db_level) = 10^(db_level/20)` once and uses only
`max_vol` afterwards; the embedding takes that precomputed linear target as
the rational parameter `max_vol` (for `db_level ∈ [-100, 0]`,
`max_vol ∈ [10^-5, 1]`).  An empty buffer returns immediately; otherwise a
zero `samples_per_chunk = (unsigned)(freq * 0.01f)` makes the C++ chunk-count
division divide by zero, modelled as `none`. -/
def NormalizeAudioWaveform (wav : Waveform) (max_vol : ℚ) : Option Waveform :=
  if wav.m_data = [] then some wav
  else
    let spc := wav.m_frequency / 100
    if spc = 0 then none
    else
      let nc := wav.m_data.length / spc
      some { wav with
        m_data := ((List.range nc).foldl (normStep max_vol spc nc)
          (wav.m_data, 1)).1 }

/-- The gain value carried by `normalize.cpp` after `k` chunk decisions on the
original buffer `data` (chunk peaks are read from yet-unwritten samples, so
they coincide with the peaks of the original data). -/
def norm_gain_after (data : List ℚ) (max_vol : ℚ) (spc : ℕ) : ℕ → ℚ
  | 0 => 1
  | k + 1 =>
      gainStep max_vol (norm_gain_after data max_vol spc k)
        (local_peak (chunk_of data spc k))

/-- The buffer contents of `normalize.cpp` after the first `k` chunks have
been scaled (with `k` before the final chunk): sample `i` of chunk `c < k` is
`data[i] * gain-after-chunk-c`, later samples are untouched. -/
def norm_model (data : List ℚ) (max_vol : ℚ) (spc k : ℕ) : List ℚ :=
  (List.range data.length).map
    (fun i => if i < k * spc then
        data.getD i 0 * norm_gain_after data max_vol spc (i / spc + 1)
      else data.getD i 0)

/-- The final buffer contents of `normalize.cpp`: sample `i` is scaled by the
gain of its governing chunk, `min (i / spc + 1) chunkCount` — full chunks use
their own gain, the trailing remainder uses the final chunk's gain, and with
no full chunks the gain is the initial `1`. -/
def norm_result (data : List ℚ) (max_vol : ℚ) (spc : ℕ) : List ℚ :=
  (List.range data.length).map
    (fun i => data.getD i 0 *
      norm_gain_after data max_vol spc (min (i / spc + 1) (data.length / spc)))

/-- The float-to-`int16_t` conversion of `Waveform::WriteToWAVFile`
(`waveform.cpp` line 156): `static_cast<int16_t>(sample * 32768)`, i.e.
truncation of `sample * 32768` toward zero.  The cast performs no clamping;
the model keeps the untruncated mathematical value (an out-of-range value is
undefined behaviour in C++). -/
def float_to_int16 (q : ℚ) : ℤ :=
  Int.tdiv q.num (q.den : ℤ)

/-- The sample conversion loop of `Waveform::WriteToWAVFile` (`waveform.cpp`
lines 153-156): convert `num` samples starting at `start` to 16-bit PCM. -/
def WriteToWAVFile_samples (wav : Waveform) (start num : ℕ) : List ℤ :=
  (List.range num).map
    (fun i => float_to_int16 (wav.m_data.getD (start + i) 0 * 32768))

/-- Modelled from the spec: the sample conversion as the specification
describes it, `round(sample * 32768)` (§6 Encoder).  Used only to compare
against the source's `float_to_int16` conversion. -/
def WriteToWAVFile_samples_claim (wav : Waveform) (start num : ℕ) : List ℤ :=
  (List.range num).map
    (fun i => round (wav.m_data.getD (start + i) 0 * 32768))

/-- Modelled from the spec: the window count as claim C4 words it — positions
with index `< 0` are quiet by convention and every position with index `≥ 0`
is classified by comparing that chunk's standard deviation to the threshold.
Used only to compare against the source's `recentCounts`. -/
def recentCounts_claim (sdsq : ℕ → ℚ) (thrsq : ℚ) (tick : ℕ) : ℕ × ℕ :=
  (List.range 10).foldl
    (fun (c : ℕ × ℕ) (k : ℕ) =>
      if (if 0 ≤ (tick : ℤ) - (k : ℤ) then
            decide (sdsq ((tick : ℤ) - (k : ℤ)).toNat < thrsq) else true) then
        (c.1 + 1, c.2)
      else (c.1, c.2 + 1))
    (0, 0)

/-- Concrete waveform exercising the chunk-0 window classification: sample
rate 40 (chunk size 2), one loud chunk `[1, -1]`. -/
def wav_c4 : Waveform := ⟨40, [1, -1]⟩

/-- Concrete waveform for the segment-overlap analysis: sample rate 40
(chunk size 2), 25 chunks, loud (`[1, -1]`) at chunk indices
4, 5, 6, 14, 15, 17 and quiet (`[0, 0]`) elsewhere. -/
def wav_c5 : Waveform :=
  ⟨40, (List.range 25).flatMap
    (fun i => if i = 4 ∨ i = 5 ∨ i = 6 ∨ i = 14 ∨ i = 15 ∨ i = 17 then
        ([1, -1] : List ℚ) else [0, 0])⟩

/-! ### Window-count lemmas (`segment.cpp` lines 117-129) -/

theorem countFold (l : List ℕ) (p : ℕ → Bool) (acc : ℕ × ℕ) :
    l.foldl (fun c k => if p k then (c.1 + 1, c.2) else (c.1, c.2 + 1)) acc
      = (acc.1 + l.countP p, acc.2 + l.countP (fun k => !p k)) := by
  induction l generalizing acc with
  | nil => simp
  | cons a l ih =>
      simp only [List.foldl_cons, List.countP_cons, ih]
      by_cases h : p a <;> simp [h] <;> omega

theorem recentCounts_eq (sdsq : ℕ → ℚ) (thrsq : ℚ) (t : ℕ) :
    recentCounts sdsq thrsq t =
      ((List.range 10).countP (fun (k : ℕ) => chunk_quiet sdsq thrsq ((t : ℤ) - (k : ℤ))),
       (List.range 10).countP (fun (k : ℕ) => !chunk_quiet sdsq thrsq ((t : ℤ) - (k : ℤ)))) := by
  unfold recentCounts
  rw [countFold]
  simp

theorem recentCounts_sum (sdsq : ℕ → ℚ) (thrsq : ℚ) (t : ℕ) :
    (recentCounts sdsq thrsq t).1 + (recentCounts sdsq thrsq t).2 = 10 := by
  rw [recentCounts_eq]
  have h := List.length_eq_countP_add_countP
    (l := List.range 10) (p := fun (k : ℕ) => chunk_quiet sdsq thrsq ((t : ℤ) - (k : ℤ)))
  simpa using h.symm

theorem recentLoud_zero (sdsq : ℕ → ℚ) (thrsq : ℚ) :
    (recentCounts sdsq thrsq 0).2 = 0 := by
  rw [recentCounts_eq]
  simp only []
  rw [List.countP_eq_zero]
  intro k _
  have hneg : ¬ (0 : ℤ) < ((0 : ℕ) : ℤ) - (k : ℤ) := by omega
  simp [chunk_quiet, hneg]

theorem recentLoud_succ_le (sdsq : ℕ → ℚ) (thrsq : ℚ) (t : ℕ) :
    (recentCounts sdsq thrsq (t + 1)).2 ≤ (recentCounts sdsq thrsq t).2 + 1 := by
  rw [recentCounts_eq, recentCounts_eq]
  simp only []
  have h1 : List.range 10 = 0 :: List.map Nat.succ (List.range 9) := by rfl
  have h2 : List.range 10 = List.range 9 ++ [9] := by rfl
  have hL : (List.range 10).countP
        (fun (k : ℕ) => !chunk_quiet sdsq thrsq (((t + 1 : ℕ) : ℤ) - (k : ℤ)))
      = (List.range 9).countP (fun (k : ℕ) => !chunk_quiet sdsq thrsq ((t : ℤ) - (k : ℤ)))
        + (if !chunk_quiet sdsq thrsq (((t + 1 : ℕ) : ℤ) - ((0 : ℕ) : ℤ)) then 1 else 0) := by
    rw [h1, List.countP_cons, List.countP_map]
    have hcong : (List.range 9).countP
          ((fun (k : ℕ) => !chunk_quiet sdsq thrsq (((t + 1 : ℕ) : ℤ) - (k : ℤ))) ∘ Nat.succ)
        = (List.range 9).countP
            (fun (k : ℕ) => !chunk_quiet sdsq thrsq ((t : ℤ) - (k : ℤ))) := by
      apply List.countP_congr
      intro k _
      have harg : (((t + 1 : ℕ) : ℤ) - ((Nat.succ k : ℕ) : ℤ)) = (t : ℤ) - (k : ℤ) := by
        push_cast
        ring
      simp [Function.comp, harg]
    rw [hcong]
  have hR : (List.range 10).countP (fun (k : ℕ) => !chunk_quiet sdsq thrsq ((t : ℤ) - (k : ℤ)))
      = (List.range 9).countP (fun (k : ℕ) => !chunk_quiet sdsq thrsq ((t : ℤ) - (k : ℤ)))
        + ([9] : List ℕ).countP (fun (k : ℕ) => !chunk_quiet sdsq thrsq ((t : ℤ) - (k : ℤ))) := by
    rw [h2, List.countP_append]
  rw [hL, hR]
  have hite : (if !chunk_quiet sdsq thrsq (((t + 1 : ℕ) : ℤ) - ((0 : ℕ) : ℤ)) then 1 else 0) ≤ 1 := by
    split <;> omega
  omega

theorem recentLoud_add_le (sdsq : ℕ → ℚ) (thrsq : ℚ) (t d : ℕ) :
    (recentCounts sdsq thrsq (t + d)).2 ≤ (recentCounts sdsq thrsq t).2 + d := by
  induction d with
  | zero => simp
  | succ d ih =>
      have h := recentLoud_succ_le sdsq thrsq (t + d)
      have : t + (d + 1) = (t + d) + 1 := by ring
      rw [this]
      omega

theorem recentLoud_le_self (sdsq : ℕ → ℚ) (thrsq : ℚ) (t : ℕ) :
    (recentCounts sdsq thrsq t).2 ≤ t := by
  have h := recentLoud_add_le sdsq thrsq 0 t
  have h0 := recentLoud_zero sdsq thrsq
  simpa [h0] using h

theorem recentLoud_le_ten (sdsq : ℕ → ℚ) (thrsq : ℚ) (t : ℕ) :
    (recentCounts sdsq thrsq t).2 ≤ 10 := by
  have h := recentCounts_sum sdsq thrsq t
  omega

/-- Claim C4 (amended): at every chunk index `tick`, the Segmenter classifies
the 10 window positions `tick, tick-1, ..., tick-9` such that exactly the
positions with index `< 1` (that is, index `≤ 0`, including index 0) are quiet
by convention, every position with index `≥ 1` is classified by comparing that
chunk's standard deviation to the threshold, and
`recentQuiet + recentLoud = 10`. -/
theorem C4_hysteresis_window_amended (sdsq : ℕ → ℚ) (thrsq : ℚ) (t : ℕ) :
    (recentCounts sdsq thrsq t).1 + (recentCounts sdsq thrsq t).2 = 10 ∧
    (recentCounts sdsq thrsq t).2
      = (List.range 10).countP
          (fun (k : ℕ) => decide (k < t) && decide (thrsq ≤ sdsq (t - k))) := by
  refine ⟨recentCounts_sum sdsq thrsq t, ?_⟩
  rw [recentCounts_eq]
  simp only []
  apply List.countP_congr
  intro k _
  simp only [chunk_quiet]
  by_cases hk : k < t
  · have hpos : (0 : ℤ) < (t : ℤ) - (k : ℤ) := by omega
    have htn : ((t : ℤ) - (k : ℤ)).toNat = t - k := by omega
    rw [if_pos hpos, htn]
    by_cases hle : thrsq ≤ sdsq (t - k)
    · simp [hle, hk, not_lt.mpr hle]
    · simp [hle, hk, lt_of_not_le hle]
  · have hpos : ¬ (0 : ℤ) < (t : ℤ) - (k : ℤ) := by omega
    rw [if_neg hpos]
    simp [hk]

/-- Claim C4, as stated, is false: in `wav_c4` chunk 0 is loud (its standard
deviation exceeds the threshold), yet at tick 0 the code counts all 10 window
positions — including position 0 — as quiet, whereas the claimed convention
(only indices `< 0` quiet, index `0` classified by comparison) would count one
loud position. -/
theorem C4_counterexample :
    recentCounts (stddev_per_chunk wav_c4) (stddev_threshold_sq wav_c4) 0 = (10, 0) ∧
    recentCounts_claim (stddev_per_chunk wav_c4) (stddev_threshold_sq wav_c4) 0 = (9, 1) := by
  exact ⟨by with_unfolding_all decide, by with_unfolding_all decide⟩

/-! ### The tick-loop invariant of `segment.cpp` -/

theorem segStep_inv (sdsq : ℕ → ℚ) (thrsq : ℚ) (spc nc t : ℕ)
    (st : List Segment × ℕ) (hspc : 1 ≤ spc) (ht : t < nc)
    (hinv : SegLoopInv (fun u => (recentCounts sdsq thrsq u).2) spc nc t st) :
    SegLoopInv (fun u => (recentCounts sdsq thrsq u).2) spc nc (t + 1)
      (segStep sdsq thrsq spc nc st t) := by
  obtain ⟨hchain, hwf, hlast, hact⟩ := hinv
  simp only [] at hlast hact
  have hsum := recentCounts_sum sdsq thrsq t
  have hle_self := recentLoud_le_self sdsq thrsq t
  by_cases hA : st.2 = 0 ∧ 3 ≤ (recentCounts sdsq thrsq t).2
  · -- idle, enough recent loud chunks: (maybe) open a segment
    have hstep : segStep sdsq thrsq spc nc st t
        = (st.1, t - (recentCounts sdsq thrsq t).2) := by
      simp only [segStep, if_pos hA]
    rw [hstep]
    refine ⟨hchain, hwf, ?_, ?_⟩
    · intro z hz
      obtain ⟨a, b, h1, h2, h3, h4, h5, h6⟩ := hlast z hz
      exact ⟨a, b, h1, h2, h3, h4, by omega, h6⟩
    · intro hne
      simp only [] at hne
      constructor
      · simp only []
        omega
      · intro z hz
        simp only [] at hz
        obtain ⟨a, b, h1, h2, h3, h4, h5, h6⟩ := hlast z hz
        have hb2 : (recentCounts sdsq thrsq b).2 ≤ 2 := by
          rcases h6 with h6 | h6
          · exact h6
          · omega
        have hgrow : (recentCounts sdsq thrsq t).2
            ≤ (recentCounts sdsq thrsq b).2 + (t - b) := by
          have hmono := recentLoud_add_le sdsq thrsq b (t - b)
          have hb : b + (t - b) = t := by omega
          rw [hb] at hmono
          exact hmono
        exact ⟨a, b, h1, h2, by omega, by omega⟩
  · by_cases hB : st.2 ≠ 0 ∧ (8 ≤ (recentCounts sdsq thrsq t).1 ∨ t = nc - 1)
    · -- active, enough recent quiet chunks (or end of buffer): close the segment
      have hstep : segStep sdsq thrsq spc nc st t
          = (st.1 ++ [⟨st.2 * spc, (t - st.2) * spc⟩], 0) := by
        simp only [segStep, if_neg hA, if_pos hB]
      rw [hstep]
      obtain ⟨hs4, hzfacts⟩ := hact hB.1
      have hst : st.2 + 4 ≤ t := hs4
      refine ⟨?_, ?_, ?_, ?_⟩
      · rw [List.chain'_append]
        refine ⟨hchain, List.chain'_singleton _, ?_⟩
        intro x hx y hy
        simp only [List.head?_cons, Option.mem_some_iff] at hy
        obtain ⟨a, b, h1, h2, h3, h4⟩ := hzfacts x hx
        subst hy
        constructor
        · simp only [h1]
          exact mul_lt_mul_of_pos_right h3 (by omega)
        · have : b * spc ≤ (st.2 + 2) * spc := mul_le_mul_right' h4 spc
          simp only [← h2] at this ⊢
          calc x.m_start + x.m_count ≤ (st.2 + 2) * spc := by omega
            _ = st.2 * spc + 2 * spc := by ring
      · intro x hx
        rcases List.mem_append.mp hx with hx | hx
        · exact hwf x hx
        · simp only [List.mem_singleton] at hx
          subst hx
          constructor
          · simp only []
            have : 0 < t - st.2 := by omega
            exact Nat.mul_pos this (by omega)
          · simp only []
            have heq : st.2 * spc + (t - st.2) * spc = t * spc := by
              rw [← Nat.add_mul]
              congr 1
              omega
            rw [heq]
            exact mul_le_mul_right' (by omega) spc
      · intro z hz
        rw [List.getLast?_concat] at hz
        simp only [Option.mem_some_iff] at hz
        subst hz
        refine ⟨st.2, t, rfl, ?_, by omega, by omega, by omega, ?_⟩
        · simp only []
          rw [← Nat.add_mul]
          congr 1
          omega
        · rcases hB.2 with h8 | hend
          · left
            show (recentCounts sdsq thrsq t).2 ≤ 2
            omega
          · right
            exact hend
      · intro hne
        simp only [] at hne
        exact absurd rfl hne
    · -- no transition: state unchanged
      have hstep : segStep sdsq thrsq spc nc st t = st := by
        simp only [segStep, if_neg hA, if_neg hB]
      rw [hstep]
      refine ⟨hchain, hwf, ?_, ?_⟩
      · intro z hz
        obtain ⟨a, b, h1, h2, h3, h4, h5, h6⟩ := hlast z hz
        exact ⟨a, b, h1, h2, h3, h4, by omega, h6⟩
      · intro hne
        obtain ⟨hs4, hzfacts⟩ := hact hne
        exact ⟨by omega, hzfacts⟩

theorem seg_fold_inv (sdsq : ℕ → ℚ) (thrsq : ℚ) (spc nc : ℕ) (hspc : 1 ≤ spc)
    (k : ℕ) (hk : k ≤ nc) :
    SegLoopInv (fun u => (recentCounts sdsq thrsq u).2) spc nc k
      ((List.range k).foldl (segStep sdsq thrsq spc nc) ([], 0)) := by
  induction k with
  | zero =>
      refine ⟨List.chain'_nil, ?_, ?_, ?_⟩
      · intro x hx
        simp at hx
      · intro z hz
        simp at hz
      · intro hne
        simp at hne
  | succ k ih =>
      rw [List.range_succ, List.foldl_append, List.foldl_cons, List.foldl_nil]
      exact segStep_inv sdsq thrsq spc nc k _ hspc (by omega) (ih (by omega))

theorem FindSegments_eq_some (wav : Waveform) (segs : List Segment)
    (h : FindSegmentsInAudioWaveform wav = some segs) :
    1 ≤ wav.m_frequency / 20 ∧
    segs = ((List.range (wav.m_data.length / (wav.m_frequency / 20))).foldl
      (segStep (stddev_per_chunk wav) (stddev_threshold_sq wav) (wav.m_frequency / 20)
        (wav.m_data.length / (wav.m_frequency / 20))) ([], 0)).1 := by
  by_cases h0 : wav.m_frequency / 20 = 0
  · simp [FindSegmentsInAudioWaveform, h0] at h
  · refine ⟨by omega, ?_⟩
    simp only [FindSegmentsInAudioWaveform, h0, if_false, Option.some.injEq] at h
    exact h.symm

/-! ### Segmenter claims -/

/-- Claim C5 (amended): for every input buffer on which the pass completes,
the returned Segment list is sorted strictly ascending by `m_start`, and for
every adjacent pair `region[i].m_start + region[i].m_count ≤
region[i+1].m_start + 2 * chunkSize`: adjacent regions may overlap, but by at
most two chunks (the `region[i].start + region[i].count ≤ region[i+1].start`
form of the claim fails, see the counterexample). -/
theorem C5_region_ordering_amended (wav : Waveform) (segs : List Segment)
    (h : FindSegmentsInAudioWaveform wav = some segs) :
    List.Chain' (segRel (wav.m_frequency / 20)) segs := by
  obtain ⟨hspc, hsegs⟩ := FindSegments_eq_some wav segs h
  subst hsegs
  exact (seg_fold_inv (stddev_per_chunk wav) (stddev_threshold_sq wav)
    (wav.m_frequency / 20) (wav.m_data.length / (wav.m_frequency / 20))
    hspc _ le_rfl).1

/-- Claim C5, as stated, is false: on `wav_c5` the Segmenter closes a segment
at tick 16 (ending at sample 32) and immediately reopens from the still-loud
window positions 14 and 15, emitting a second segment that starts at sample
28 — inside the first one.  The returned list violates
`region[0].start + region[0].count ≤ region[1].start` (`6 + 26 > 28`). -/
theorem C5_counterexample :
    FindSegmentsInAudioWaveform wav_c5 = some [⟨6, 26⟩, ⟨28, 20⟩] ∧
    ¬ ((6 : ℕ) + 26 ≤ 28) :=
  ⟨by with_unfolding_all decide, by omega⟩

/-- Witness for `C5_region_ordering_amended` at the concrete buffer
`wav_c5`. -/
theorem C5_witness :
    FindSegmentsInAudioWaveform wav_c5 = some [⟨6, 26⟩, ⟨28, 20⟩] ∧
    List.Chain' (segRel (wav_c5.m_frequency / 20)) [⟨6, 26⟩, ⟨28, 20⟩] :=
  ⟨by with_unfolding_all decide,
   C5_region_ordering_amended wav_c5 [⟨6, 26⟩, ⟨28, 20⟩] (by with_unfolding_all decide)⟩

/-- Claim C10: with a positive chunk size, at every idle-to-active transition
`recent_loud ≤ tick` (window positions at index `≤ 0` are always counted
quiet), so `tick - recent_loud` never underflows — stated as
`recent_loud ≤ tick` at every tick, for every chunk classification — and
every Segment returned by `FindSegmentsInAudioWaveform` satisfies
`0 < m_count` and `m_start + m_count ≤` the buffer's sample count. -/
theorem C10_segment_wellformedness :
    (∀ (sdsq : ℕ → ℚ) (thrsq : ℚ) (t : ℕ), (recentCounts sdsq thrsq t).2 ≤ t) ∧
    ∀ (wav : Waveform) (segs : List Segment),
      FindSegmentsInAudioWaveform wav = some segs →
      ∀ x ∈ segs, 0 < x.m_count ∧ x.m_start + x.m_count ≤ wav.m_data.length := by
  refine ⟨recentLoud_le_self, ?_⟩
  intro wav segs h x hx
  obtain ⟨hspc, hsegs⟩ := FindSegments_eq_some wav segs h
  subst hsegs
  have hinv := seg_fold_inv (stddev_per_chunk wav) (stddev_threshold_sq wav)
    (wav.m_frequency / 20) (wav.m_data.length / (wav.m_frequency / 20)) hspc _ le_rfl
  have hwfx := hinv.2.1 x hx
  have h1 : (wav.m_data.length / (wav.m_frequency / 20) - 1) * (wav.m_frequency / 20)
      ≤ (wav.m_data.length / (wav.m_frequency / 20)) * (wav.m_frequency / 20) :=
    mul_le_mul_right' (Nat.sub_le _ _) _
  have h2 : (wav.m_data.length / (wav.m_frequency / 20)) * (wav.m_frequency / 20)
      ≤ wav.m_data.length := Nat.div_mul_le_self _ _
  exact ⟨hwfx.1, le_trans hwfx.2 (le_trans h1 h2)⟩

/-- Witness for `C10_segment_wellformedness` at a concrete buffer: the
13-sample all-zero buffer at rate 20 yields the segment `⟨1, 11⟩`, which is
nonempty and stays within the 13 samples. -/
theorem C10_witness :
    0 < (⟨1, 11⟩ : Segment).m_count ∧
    (⟨1, 11⟩ : Segment).m_start + (⟨1, 11⟩ : Segment).m_count
      ≤ (Waveform.mk 20 (List.replicate 13 0)).m_data.length :=
  C10_segment_wellformedness.2 ⟨20, List.replicate 13 0⟩ [⟨1, 11⟩]
    (by with_unfolding_all decide) ⟨1, 11⟩ (List.mem_singleton_self _)

/-- Claim C2 is right and the code is wrong (`segment.cpp` documents that "an
empty list is returned if the entire waveform is silent"): on the all-zero
13-sample buffer at rate 20 the min/max-derived threshold is `0`, the strict
comparison `stddev < threshold` classifies every zero-variance chunk as loud,
and the pass returns the non-empty list `[⟨1, 11⟩]`. -/
theorem C2_allzero_buffer_run :
    FindSegmentsInAudioWaveform ⟨20, List.replicate 13 0⟩ = some [⟨1, 11⟩] := by
  with_unfolding_all decide

/-- Claim C3, as stated, is false: for a zero sample rate (here together with
a zero-length buffer, both degenerate classes of the claim) the Segmenter's
`samples_per_chunk` is `0` and `m_data.size() / samples_per_chunk` divides by
zero instead of completing with an empty result. -/
theorem C3_counterexample :
    FindSegmentsInAudioWaveform ⟨0, []⟩ = none := by
  with_unfolding_all decide

/-- Claim C3 (amended): a zero-length buffer is a no-op / empty result for
the Segmenter whenever its chunk size is positive (sample rate ≥ 20) and for
the Normalizer at every sample rate (its empty-buffer check precedes the
division); but whenever the computed chunk size is zero (in particular for a
zero sample rate) the chunk-count division divides by zero — for the
Segmenter always, for the Normalizer whenever the buffer is non-empty. -/
theorem C3_degenerate_amended :
    (∀ freq : ℕ, 20 ≤ freq → FindSegmentsInAudioWaveform ⟨freq, []⟩ = some []) ∧
    (∀ (freq : ℕ) (mv : ℚ), NormalizeAudioWaveform ⟨freq, []⟩ mv = some ⟨freq, []⟩) ∧
    (∀ wav : Waveform, wav.m_frequency / 20 = 0 →
      FindSegmentsInAudioWaveform wav = none) ∧
    (∀ (wav : Waveform) (mv : ℚ), wav.m_frequency / 100 = 0 → wav.m_data ≠ [] →
      NormalizeAudioWaveform wav mv = none) := by
  refine ⟨?_, ?_, ?_, ?_⟩
  · intro freq hfreq
    have h0 : ¬ ((⟨freq, []⟩ : Waveform).m_frequency / 20 = 0) := by
      simp only []
      have := (Nat.one_le_div_iff (by omega : 0 < 20)).mpr hfreq
      omega
    simp [FindSegmentsInAudioWaveform, h0]
  · intro freq mv
    simp [NormalizeAudioWaveform]
  · intro wav h0
    simp [FindSegmentsInAudioWaveform, h0]
  · intro wav mv h0 hdata
    simp [NormalizeAudioWaveform, h0, hdata]

/-- Witness for `C3_degenerate_amended` at concrete inputs. -/
theorem C3_witness :
    FindSegmentsInAudioWaveform ⟨20, []⟩ = some [] ∧
    NormalizeAudioWaveform ⟨0, []⟩ 1 = some ⟨0, []⟩ ∧
    FindSegmentsInAudioWaveform ⟨19, [1]⟩ = none ∧
    NormalizeAudioWaveform ⟨99, [1]⟩ 1 = none :=
  ⟨C3_degenerate_amended.1 20 (by omega),
   C3_degenerate_amended.2.1 0 1,
   C3_degenerate_amended.2.2.1 ⟨19, [1]⟩ (by decide),
   C3_degenerate_amended.2.2.2 ⟨99, [1]⟩ 1 (by decide) (by simp)⟩

/-! ### Indexing helpers -/

theorem getElem?_range_map {α : Type} (n : ℕ) (f : ℕ → α) (i : ℕ) :
    ((List.range n).map f)[i]? = if i < n then some (f i) else none := by
  rw [List.getElem?_map]
  by_cases hi : i < n
  · rw [List.getElem?_range hi, if_pos hi]
    rfl
  · rw [if_neg hi, List.getElem?_eq_none]
    · rfl
    · rw [List.length_range]
      omega

theorem getD_range_map {α : Type} (n : ℕ) (f : ℕ → α) (d : α) (i : ℕ) (hi : i < n) :
    ((List.range n).map f).getD i d = f i := by
  rw [List.getD_eq_getElem?_getD, getElem?_range_map, if_pos hi]
  rfl

theorem getElem?_of_lt {α : Type} [Inhabited α] (l : List α) (i : ℕ) (hi : i < l.length) :
    l[i]? = some (l.getD i default) := by
  rw [List.getElem?_eq_getElem hi, List.getD_eq_getElem l default hi]

theorem range_map_getD_self (l : List ℚ) :
    (List.range l.length).map (fun i => l.getD i 0) = l := by
  apply List.ext_getElem?
  intro n
  rw [getElem?_range_map]
  by_cases h : n < l.length
  · rw [if_pos h]
    exact (getElem?_of_lt l n h).symm
  · rw [if_neg h]
    exact (List.getElem?_eq_none (by omega)).symm

/-! ### Peak and gain lemmas for `normalize.cpp` -/

theorem foldl_max_abs (data : List ℚ) (acc : ℚ) :
    acc ≤ data.foldl (fun a x => max a |x|) acc ∧
    ∀ x ∈ data, |x| ≤ data.foldl (fun a x => max a |x|) acc := by
  induction data generalizing acc with
  | nil => exact ⟨le_refl _, by simp⟩
  | cons y l ih =>
      refine ⟨?_, ?_⟩
      · calc acc ≤ max acc |y| := le_max_left _ _
          _ ≤ _ := (ih (max acc |y|)).1
      · intro x hx
        rcases List.mem_cons.mp hx with h | h
        · subst h
          calc |x| ≤ max acc |x| := le_max_right _ _
            _ ≤ _ := (ih _).1
        · exact (ih _).2 x h

theorem local_peak_nonneg (data : List ℚ) : 0 ≤ local_peak data :=
  (foldl_max_abs data 0).1

theorem le_local_peak (data : List ℚ) (x : ℚ) (hx : x ∈ data) : |x| ≤ local_peak data :=
  (foldl_max_abs data 0).2 x hx

theorem releaseGain_pos (mv g p : ℚ) (hg : 0 < g) : 0 < releaseGain mv g p := by
  unfold releaseGain
  split
  · positivity
  · exact hg

theorem releaseGain_le_105 (mv g p : ℚ) (hg : g ≤ 105) : releaseGain mv g p ≤ 105 := by
  unfold releaseGain
  split
  · rename_i h
    nlinarith [h.2]
  · exact hg

theorem gainStep_pos (mv g p : ℚ) (hmv : 0 < mv) (hg : 0 < g) : 0 < gainStep mv g p := by
  unfold gainStep
  simp only []
  split
  · split
    · positivity
    · rename_i h1 h2
      have hp0 : (0 : ℚ) < p := lt_of_lt_of_le (by norm_num) (le_of_not_lt h2)
      exact div_pos hmv hp0
  · exact releaseGain_pos mv g p hg

theorem gainStep_le_105 (mv g p : ℚ) (hmv1 : 0 < mv) (hmv2 : mv ≤ 1) (hg : g ≤ 105) :
    gainStep mv g p ≤ 105 := by
  unfold gainStep
  simp only []
  split
  · split
    · have h50 : mv / (1 / 50 : ℚ) = 50 * mv := by ring
      rw [h50]
      linarith
    · rename_i h1 h2
      have hp : (1 : ℚ) / 50 ≤ p := le_of_not_lt h2
      have hp0 : (0 : ℚ) < p := lt_of_lt_of_le (by norm_num) hp
      have hdiv : mv / p ≤ 50 * mv := by
        rw [div_le_iff₀ hp0]
        nlinarith
      linarith
  · exact releaseGain_le_105 mv g p hg

theorem gainStep_peak_le (mv g p : ℚ) (hmv : 0 < mv) (hp : 0 ≤ p) :
    p * gainStep mv g p ≤ mv := by
  unfold gainStep
  simp only []
  split
  · split
    · rename_i h1 h2
      have heq : p * (mv / (1 / 50 : ℚ)) = 50 * p * mv := by ring
      rw [heq]
      nlinarith
    · rename_i h1 h2
      have hp0 : (0 : ℚ) < p := lt_of_lt_of_le (by norm_num) (le_of_not_lt h2)
      rw [mul_comm, div_mul_cancel₀ mv (ne_of_gt hp0)]
  · rename_i h
    exact le_of_not_lt h

theorem gainStep_attack_le (mv g p : ℚ) (hmv : 0 < mv)
    (h : mv < p * releaseGain mv g p) : gainStep mv g p ≤ mv / (1 / 50) := by
  unfold gainStep
  simp only []
  rw [if_pos h]
  split
  · exact le_refl _
  · rename_i h2
    have hp : (1 : ℚ) / 50 ≤ p := le_of_not_lt h2
    have hp0 : (0 : ℚ) < p := lt_of_lt_of_le (by norm_num) hp
    have h50 : mv / (1 / 50 : ℚ) = 50 * mv := by ring
    rw [h50, div_le_iff₀ hp0]
    nlinarith

theorem norm_gain_after_pos (data : List ℚ) (mv : ℚ) (spc : ℕ) (hmv : 0 < mv) :
    ∀ k, 0 < norm_gain_after data mv spc k := by
  intro k
  induction k with
  | zero => exact one_pos
  | succ k ih => exact gainStep_pos mv _ _ hmv ih

theorem norm_gain_after_le_105 (data : List ℚ) (mv : ℚ) (spc : ℕ)
    (hmv1 : 0 < mv) (hmv2 : mv ≤ 1) :
    ∀ k, norm_gain_after data mv spc k ≤ 105 := by
  intro k
  induction k with
  | zero => norm_num [norm_gain_after]
  | succ k ih => exact gainStep_le_105 mv _ _ hmv1 hmv2 ih

/-! ### The chunk-loop characterization of `normalize.cpp` -/

theorem norm_model_length (data : List ℚ) (mv : ℚ) (spc k : ℕ) :
    (norm_model data mv spc k).length = data.length := by
  unfold norm_model
  rw [List.length_map, List.length_range]

theorem norm_model_getElem? (data : List ℚ) (mv : ℚ) (spc k i : ℕ) :
    (norm_model data mv spc k)[i]? = if i < data.length then
      some (if i < k * spc then
        data.getD i 0 * norm_gain_after data mv spc (i / spc + 1)
      else data.getD i 0)
    else none :=
  getElem?_range_map _ _ _

theorem norm_model_zero (data : List ℚ) (mv : ℚ) (spc : ℕ) :
    norm_model data mv spc 0 = data := by
  unfold norm_model
  simp only [Nat.zero_mul, Nat.not_lt_zero, if_false]
  exact range_map_getD_self data

theorem chunk_of_norm_model (data : List ℚ) (mv : ℚ) (spc k : ℕ) :
    ((norm_model data mv spc k).drop (k * spc)).take spc
      = (data.drop (k * spc)).take spc := by
  apply List.ext_getElem?
  intro j
  rw [List.getElem?_take, List.getElem?_take]
  by_cases hj : j < spc
  · rw [if_pos hj, if_pos hj, List.getElem?_drop, List.getElem?_drop, norm_model_getElem?]
    by_cases hi : k * spc + j < data.length
    · rw [if_pos hi, if_neg (by omega : ¬ k * spc + j < k * spc)]
      exact (getElem?_of_lt data _ hi).symm
    · rw [if_neg hi]
      exact (List.getElem?_eq_none (by omega)).symm
  · rw [if_neg hj, if_neg hj]

theorem scaleRange_getElem? (data : List ℚ) (g : ℚ) (i0 count i : ℕ) :
    (scaleRange data g i0 count)[i]? = if i < data.length then
      some (if i0 ≤ i ∧ i < i0 + count then data.getD i 0 * g else data.getD i 0)
    else none :=
  getElem?_range_map _ _ _

theorem norm_model_getD (data : List ℚ) (mv : ℚ) (spc k i : ℕ) (hi : i < data.length) :
    (norm_model data mv spc k).getD i 0 = if i < k * spc then
      data.getD i 0 * norm_gain_after data mv spc (i / spc + 1)
    else data.getD i 0 := by
  rw [List.getD_eq_getElem?_getD, norm_model_getElem?, if_pos hi]
  rfl

theorem scaleRange_model_step (data : List ℚ) (mv : ℚ) (spc k : ℕ) (hspc : 0 < spc) :
    scaleRange (norm_model data mv spc k) (norm_gain_after data mv spc (k + 1))
        (k * spc) spc
      = norm_model data mv spc (k + 1) := by
  apply List.ext_getElem?
  intro i
  rw [scaleRange_getElem?, norm_model_getElem?, norm_model_length]
  have hexp : (k + 1) * spc = k * spc + spc := by ring
  by_cases hi : i < data.length
  · rw [if_pos hi, if_pos hi]
    congr 1
    by_cases hc : k * spc ≤ i ∧ i < k * spc + spc
    · rw [if_pos hc, norm_model_getD data mv spc k i hi,
        if_neg (by omega : ¬ i < k * spc),
        if_pos (by omega : i < (k + 1) * spc)]
      have hdiv : i / spc = k := Nat.div_eq_of_lt_le (by omega) (by omega)
      rw [hdiv]
    · rw [if_neg hc, norm_model_getD data mv spc k i hi]
      by_cases h2 : i < k * spc
      · rw [if_pos h2, if_pos (by omega : i < (k + 1) * spc)]
      · rw [if_neg h2, if_neg (by omega : ¬ i < (k + 1) * spc)]
  · rw [if_neg hi, if_neg hi]

theorem scaleRange_model_last (data : List ℚ) (mv : ℚ) (spc m : ℕ) (hspc : 0 < spc)
    (hm : data.length / spc = m + 1) :
    scaleRange (norm_model data mv spc m) (norm_gain_after data mv spc (m + 1))
        (m * spc) ((norm_model data mv spc m).length - m * spc)
      = norm_result data mv spc := by
  have hB : (m + 1) * spc ≤ data.length := by
    have := Nat.div_mul_le_self data.length spc
    rw [hm] at this
    exact this
  have hexp : (m + 1) * spc = m * spc + spc := by ring
  rw [norm_model_length]
  apply List.ext_getElem?
  intro i
  rw [scaleRange_getElem?, norm_model_length]
  unfold norm_result
  rw [getElem?_range_map, hm]
  by_cases hi : i < data.length
  · rw [if_pos hi, if_pos hi]
    congr 1
    by_cases hc : m * spc ≤ i
    · rw [if_pos (by omega), norm_model_getD data mv spc _ i hi, if_neg (by omega)]
      have hdiv : m ≤ i / spc := (Nat.le_div_iff_mul_le hspc).mpr hc
      have hmin : min (i / spc + 1) (m + 1) = m + 1 := by
        apply min_eq_right
        omega
      rw [hmin]
    · rw [if_neg (by omega), norm_model_getD data mv spc _ i hi,
        if_pos (by omega : i < m * spc)]
      have hdiv : i / spc < m := (Nat.div_lt_iff_lt_mul hspc).mpr (by omega)
      have hmin : min (i / spc + 1) (m + 1) = i / spc + 1 := by
        apply min_eq_left
        omega
      rw [hmin]
  · rw [if_neg hi, if_neg hi]

theorem norm_fold_eq (data : List ℚ) (mv : ℚ) (spc ncp : ℕ) (hspc : 0 < spc) (k : ℕ)
    (hk : k < ncp) :
    (List.range k).foldl (normStep mv spc ncp) (data, 1)
      = (norm_model data mv spc k, norm_gain_after data mv spc k) := by
  induction k with
  | zero =>
      rw [List.range_zero, List.foldl_nil, norm_model_zero]
      rfl
  | succ k ih =>
      have hk1 : k < ncp := Nat.lt_of_succ_lt hk
      rw [List.range_succ, List.foldl_append, List.foldl_cons, List.foldl_nil, ih hk1]
      show normStep mv spc ncp
        (norm_model data mv spc k, norm_gain_after data mv spc k) k = _
      unfold normStep
      simp only []
      rw [chunk_of_norm_model data mv spc k]
      have hne : ¬ k = ncp - 1 := by
        have : k < ncp - 1 := Nat.lt_sub_of_add_lt hk
        omega
      rw [if_neg hne]
      have hg : gainStep mv (norm_gain_after data mv spc k)
          (local_peak ((data.drop (k * spc)).take spc))
          = norm_gain_after data mv spc (k + 1) := rfl
      rw [hg, scaleRange_model_step data mv spc k hspc]

theorem norm_fold_full (data : List ℚ) (mv : ℚ) (spc m : ℕ) (hspc : 0 < spc)
    (hm : data.length / spc = m + 1) :
    ((List.range (m + 1)).foldl (normStep mv spc (m + 1)) (data, 1)).1
      = norm_result data mv spc := by
  rw [List.range_succ, List.foldl_append,
    norm_fold_eq data mv spc (m + 1) hspc m (by omega),
    List.foldl_cons, List.foldl_nil]
  show (normStep mv spc (m + 1)
    (norm_model data mv spc m, norm_gain_after data mv spc m) m).1 = _
  unfold normStep
  simp only []
  have hcond : m = m + 1 - 1 := rfl
  rw [chunk_of_norm_model data mv spc m, if_pos hcond]
  have hg : gainStep mv (norm_gain_after data mv spc m)
      (local_peak ((data.drop (m * spc)).take spc))
      = norm_gain_after data mv spc (m + 1) := rfl
  rw [hg]
  exact scaleRange_model_last data mv spc m hspc hm

theorem NormalizeAudioWaveform_eq (wav : Waveform) (mv : ℚ)
    (hspc : 0 < wav.m_frequency / 100) :
    NormalizeAudioWaveform wav mv
      = some ⟨wav.m_frequency,
          norm_result wav.m_data mv (wav.m_frequency / 100)⟩ := by
  by_cases hdata : wav.m_data = []
  · rw [NormalizeAudioWaveform, if_pos hdata]
    congr 1
    cases wav with
    | mk freq data =>
        simp only [] at hdata
        subst hdata
        simp [norm_result]
  · rw [NormalizeAudioWaveform, if_neg hdata]
    simp only []
    rw [if_neg (by omega : ¬ wav.m_frequency / 100 = 0), Option.some.injEq,
      Waveform.mk.injEq]
    refine ⟨rfl, ?_⟩
    rcases Nat.eq_zero_or_pos (wav.m_data.length / (wav.m_frequency / 100)) with h0 | hpos
    · rw [h0, List.range_zero, List.foldl_nil]
      unfold norm_result
      rw [h0]
      simp only [Nat.min_zero]
      have hgz : norm_gain_after wav.m_data mv (wav.m_frequency / 100) 0 = 1 := rfl
      rw [hgz]
      simp only [mul_one]
      exact (range_map_getD_self wav.m_data).symm
    · have hm : wav.m_data.length / (wav.m_frequency / 100)
          = (wav.m_data.length / (wav.m_frequency / 100) - 1) + 1 :=
        (Nat.succ_pred_eq_of_pos hpos).symm
      rw [hm]
      exact norm_fold_full wav.m_data mv (wav.m_frequency / 100)
        (wav.m_data.length / (wav.m_frequency / 100) - 1) hspc hm

theorem getD_mem_chunk (data : List ℚ) (spc i : ℕ) (hspc : 0 < spc)
    (hi : i < data.length) :
    data.getD i 0 ∈ chunk_of data spc (i / spc) := by
  have hmod : i % spc < spc := Nat.mod_lt _ hspc
  have hidx : (i / spc) * spc + i % spc = i := by
    rw [mul_comm]
    exact Nat.div_add_mod i spc
  have hsome : (chunk_of data spc (i / spc))[i % spc]? = some (data.getD i 0) := by
    unfold chunk_of
    rw [List.getElem?_take, if_pos hmod, List.getElem?_drop, hidx]
    exact getElem?_of_lt data i hi
  exact List.getElem?_mem hsome

/-! ### Normalizer claims -/

/-- Claim C1 (amended): for every buffer, every `max_vol = 10^(dbLevel/20)`
with `dbLevel ∈ [-100, 0]` (so `max_vol ∈ [10^-5, 1]`) and a positive chunk
size (sample rate ≥ 100), after `NormalizeAudioWaveform` completes, every
sample inside the full chunks (the first `chunkCount * chunkSize` samples)
has absolute value at most `targetLinear * 1.001` (in exact arithmetic even
at most `targetLinear`).  Trailing remainder samples are excluded: their
values are scaled but never measured, so the ceiling does not hold for them
(see the counterexample). -/
theorem C1_normalizer_ceiling_amended (wav : Waveform) (mv : ℚ) (out : Waveform)
    (hmv1 : 1 / 100000 ≤ mv) (hmv2 : mv ≤ 1)
    (hspc : 1 ≤ wav.m_frequency / 100)
    (hout : NormalizeAudioWaveform wav mv = some out) :
    ∀ i < (wav.m_data.length / (wav.m_frequency / 100)) * (wav.m_frequency / 100),
      |out.m_data.getD i 0| ≤ mv * (1001 / 1000) := by
  intro i hi
  have hmv0 : 0 < mv := lt_of_lt_of_le (by norm_num) hmv1
  rw [NormalizeAudioWaveform_eq wav mv hspc] at hout
  obtain rfl := Option.some.inj hout
  have hlen : i < wav.m_data.length := lt_of_lt_of_le hi (Nat.div_mul_le_self _ _)
  show |(norm_result wav.m_data mv (wav.m_frequency / 100)).getD i 0| ≤ _
  unfold norm_result
  rw [getD_range_map _ _ _ i hlen]
  have hdivlt : i / (wav.m_frequency / 100)
      < wav.m_data.length / (wav.m_frequency / 100) :=
    (Nat.div_lt_iff_lt_mul hspc).mpr hi
  have hmin : min (i / (wav.m_frequency / 100) + 1)
      (wav.m_data.length / (wav.m_frequency / 100))
      = i / (wav.m_frequency / 100) + 1 := min_eq_left (by omega)
  rw [hmin]
  have hgpos : 0 < norm_gain_after wav.m_data mv (wav.m_frequency / 100)
      (i / (wav.m_frequency / 100) + 1) :=
    norm_gain_after_pos _ _ _ hmv0 _
  rw [abs_mul, abs_of_pos hgpos]
  have hmem : wav.m_data.getD i 0
      ∈ chunk_of wav.m_data (wav.m_frequency / 100) (i / (wav.m_frequency / 100)) :=
    getD_mem_chunk wav.m_data _ i hspc hlen
  have hpeak : |wav.m_data.getD i 0|
      ≤ local_peak (chunk_of wav.m_data (wav.m_frequency / 100)
          (i / (wav.m_frequency / 100))) :=
    le_local_peak _ _ hmem
  have hpg : local_peak (chunk_of wav.m_data (wav.m_frequency / 100)
        (i / (wav.m_frequency / 100)))
      * norm_gain_after wav.m_data mv (wav.m_frequency / 100)
          (i / (wav.m_frequency / 100) + 1) ≤ mv :=
    gainStep_peak_le mv _ _ hmv0 (local_peak_nonneg _)
  calc |wav.m_data.getD i 0|
      * norm_gain_after wav.m_data mv (wav.m_frequency / 100)
          (i / (wav.m_frequency / 100) + 1)
      ≤ local_peak (chunk_of wav.m_data (wav.m_frequency / 100)
          (i / (wav.m_frequency / 100)))
        * norm_gain_after wav.m_data mv (wav.m_frequency / 100)
            (i / (wav.m_frequency / 100) + 1) :=
        mul_le_mul_of_nonneg_right hpeak (le_of_lt hgpos)
    _ ≤ mv := hpg
    _ ≤ mv * (1001 / 1000) := by nlinarith

/-- Claim C1, as stated, is false on trailing remainder samples: the buffer
`[0, 0, 1]` at rate 200 (chunk size 2, one full chunk, `dbLevel = -20` i.e.
`targetLinear = 1/10`) has a silent full chunk, so the release step raises the
gain to `1.05` and the final write scales the unmeasured remainder sample `1`
to `21/20 > (1/10) * 1.001`. -/
theorem C1_counterexample :
    NormalizeAudioWaveform ⟨200, [0, 0, 1]⟩ (1 / 10)
      = some ⟨200, [0, 0, 21 / 20]⟩ ∧
    ¬ (|(21 / 20 : ℚ)| ≤ (1 / 10) * (1001 / 1000)) :=
  ⟨by with_unfolding_all decide,
   by rw [abs_of_pos (by norm_num : (0 : ℚ) < 21 / 20)]; norm_num⟩

/-- Witness for `C1_normalizer_ceiling_amended` at a concrete buffer. -/
theorem C1_witness :
    |(Waveform.mk 100 [1 / 10, 1 / 10]).m_data.getD 1 0| ≤ (1 / 10 : ℚ) * (1001 / 1000) :=
  C1_normalizer_ceiling_amended ⟨100, [1 / 2, 1 / 2]⟩ (1 / 10) ⟨100, [1 / 10, 1 / 10]⟩
    (by norm_num) (by norm_num) (by decide) (by with_unfolding_all decide) 1 (by decide)

/-- Claim C6 (amended): for every buffer with a positive chunk size (sample
rate ≥ 100) whose length is not an exact multiple of the chunk size, once
`NormalizeAudioWaveform` completes every sample of the buffer has been
gain-adjusted: sample `i` is multiplied by the gain of its governing chunk
`min (i / chunkSize + 1) chunkCount` — in particular the final chunk's
application step extends to the end of the buffer, so the trailing remainder
is scaled by the final chunk's gain.  (When the chunk size is zero — e.g. any
positive sample rate below 100 — the pass divides by zero instead, see the
counterexample.) -/
theorem C6_remainder_amended (wav : Waveform) (mv : ℚ) (out : Waveform)
    (hspc : 1 ≤ wav.m_frequency / 100)
    (hrem : wav.m_data.length % (wav.m_frequency / 100) ≠ 0)
    (hout : NormalizeAudioWaveform wav mv = some out) :
    ∀ i < wav.m_data.length,
      out.m_data.getD i 0 = wav.m_data.getD i 0 *
        norm_gain_after wav.m_data mv (wav.m_frequency / 100)
          (min (i / (wav.m_frequency / 100) + 1)
            (wav.m_data.length / (wav.m_frequency / 100))) := by
  intro i hi
  rw [NormalizeAudioWaveform_eq wav mv hspc] at hout
  obtain rfl := Option.some.inj hout
  show (norm_result wav.m_data mv (wav.m_frequency / 100)).getD i 0 = _
  unfold norm_result
  rw [getD_range_map _ _ _ i hi]

/-- Claim C6, as stated, is false for sample rates below 100: at rate 50
(positive) the chunk size `(unsigned)(50 * 0.01f)` is `0`, every positive
length is "not an exact multiple" of it, and the pass divides by zero instead
of gain-adjusting every sample. -/
theorem C6_counterexample :
    NormalizeAudioWaveform ⟨50, [1]⟩ (1 / 10) = none := by
  with_unfolding_all decide

/-- Witness for `C6_remainder_amended`: rate 200 (chunk size 2), three
samples (one full chunk plus a remainder sample), the remainder sample is
scaled by the final chunk's gain `1/5`. -/
theorem C6_witness :
    (Waveform.mk 200 [1 / 10, 1 / 10, 1 / 10]).m_data.getD 2 0
      = (Waveform.mk 200 [1 / 2, 1 / 2, 1 / 2]).m_data.getD 2 0 *
        norm_gain_after (Waveform.mk 200 [1 / 2, 1 / 2, 1 / 2]).m_data (1 / 10)
          ((Waveform.mk 200 [1 / 2, 1 / 2, 1 / 2]).m_frequency / 100)
          (min (2 / ((Waveform.mk 200 [1 / 2, 1 / 2, 1 / 2]).m_frequency / 100) + 1)
            ((Waveform.mk 200 [1 / 2, 1 / 2, 1 / 2]).m_data.length
              / ((Waveform.mk 200 [1 / 2, 1 / 2, 1 / 2]).m_frequency / 100))) :=
  C6_remainder_amended ⟨200, [1 / 2, 1 / 2, 1 / 2]⟩ (1 / 10) ⟨200, [1 / 10, 1 / 10, 1 / 10]⟩
    (by decide) (by decide) (by with_unfolding_all decide) 2 (by decide)

/-- Claim C7: for every buffer (represented by its sample list and any chunk
size) and every `max_vol = 10^(dbLevel/20)` with `dbLevel ∈ [-100, 0]` (so
`0 < max_vol ≤ 1`), the running gain of the Normalizer starts at `1`, stays
positive, and never exceeds `105` — neither after a full chunk decision nor
after the release sub-step alone (which multiplies by `1.05` only when the
gain is below `100`, a soft one-step-overshoot bound); and whenever the
attack step fires it sets the gain to at most `targetLinear / 0.02`. -/
theorem C7_gain_soft_ceiling (data : List ℚ) (mv : ℚ) (spc : ℕ)
    (hmv1 : 0 < mv) (hmv2 : mv ≤ 1) :
    norm_gain_after data mv spc 0 = 1 ∧
    (∀ k, 0 < norm_gain_after data mv spc k ∧ norm_gain_after data mv spc k ≤ 105) ∧
    (∀ k p, releaseGain mv (norm_gain_after data mv spc k) p ≤ 105) ∧
    (∀ g p, mv < p * releaseGain mv g p → gainStep mv g p ≤ mv / (1 / 50)) :=
  ⟨rfl,
   fun k => ⟨norm_gain_after_pos _ _ _ hmv1 k, norm_gain_after_le_105 _ _ _ hmv1 hmv2 k⟩,
   fun k p => releaseGain_le_105 _ _ p (norm_gain_after_le_105 _ _ _ hmv1 hmv2 k),
   fun g p h => gainStep_attack_le mv g p hmv1 h⟩

/-- Witness for `C7_gain_soft_ceiling` at a concrete buffer and target. -/
theorem C7_witness :
    norm_gain_after [(1 : ℚ) / 2] (1 / 10) 1 0 = 1 ∧
    (0 < norm_gain_after [(1 : ℚ) / 2] (1 / 10) 1 1 ∧
      norm_gain_after [(1 : ℚ) / 2] (1 / 10) 1 1 ≤ 105) ∧
    releaseGain (1 / 10) (norm_gain_after [(1 : ℚ) / 2] (1 / 10) 1 1) 0 ≤ 105 :=
  ⟨(C7_gain_soft_ceiling [(1 : ℚ) / 2] (1 / 10) 1 (by norm_num) (by norm_num)).1,
   (C7_gain_soft_ceiling [(1 : ℚ) / 2] (1 / 10) 1 (by norm_num) (by norm_num)).2.1 1,
   (C7_gain_soft_ceiling [(1 : ℚ) / 2] (1 / 10) 1 (by norm_num) (by norm_num)).2.2.1 1 0⟩

/-- Claim C8: `FindSegmentsInAudioWaveform` never mutates the waveform (it is
embedded as a pure function of a const borrow, returning only a segment
list), and when `NormalizeAudioWaveform` completes, the mutated-in-place
buffer keeps its sample-sequence length and its sample rate. -/
theorem C8_frame_property (wav : Waveform) (mv : ℚ) (out : Waveform)
    (h : NormalizeAudioWaveform wav mv = some out) :
    out.m_frequency = wav.m_frequency ∧ out.m_data.length = wav.m_data.length := by
  by_cases hdata : wav.m_data = []
  · rw [NormalizeAudioWaveform, if_pos hdata] at h
    obtain rfl := Option.some.inj h
    exact ⟨rfl, rfl⟩
  · by_cases hspc : wav.m_frequency / 100 = 0
    · rw [NormalizeAudioWaveform, if_neg hdata] at h
      simp only [] at h
      rw [if_pos hspc] at h
      exact absurd h (by simp)
    · rw [NormalizeAudioWaveform_eq wav mv (by omega)] at h
      obtain rfl := Option.some.inj h
      refine ⟨rfl, ?_⟩
      show (norm_result wav.m_data mv (wav.m_frequency / 100)).length = _
      unfold norm_result
      rw [List.length_map, List.length_range]

/-- Witness for `C8_frame_property`: normalizing `[2]` at rate 100 to target
`1` rescales the sample to `1` but keeps length and rate. -/
theorem C8_witness :
    (Waveform.mk 100 [1]).m_frequency = (Waveform.mk 100 [2]).m_frequency ∧
    (Waveform.mk 100 [1]).m_data.length = (Waveform.mk 100 [2]).m_data.length :=
  C8_frame_property ⟨100, [2]⟩ 1 ⟨100, [1]⟩ (by with_unfolding_all decide)

/-! ### Encoder claims -/

theorem float_to_int16_eq (q : ℚ) :
    float_to_int16 q = if 0 ≤ q then ⌊q⌋ else ⌈q⌉ := by
  unfold float_to_int16
  by_cases h : 0 ≤ q
  · rw [if_pos h, Rat.floor_def]
    exact Int.tdiv_eq_ediv (Rat.num_nonneg.mpr h) (by positivity)
  · rw [if_neg h]
    have h1 : q.num.tdiv (q.den : ℤ) = -(((-q).num).tdiv (((-q).den : ℕ) : ℤ)) := by
      rw [Rat.neg_num, Rat.neg_den, Int.neg_tdiv, neg_neg]
    rw [h1]
    have h2 : ((-q).num).tdiv (((-q).den : ℕ) : ℤ) = ⌊-q⌋ := by
      rw [Rat.floor_def]
      exact Int.tdiv_eq_ediv
        (Rat.num_nonneg.mpr (by linarith [lt_of_not_le h])) (by positivity)
    rw [h2, Int.floor_neg, neg_neg]

/-- Claim C9 (amended): for every sample value written, `WriteToWAVFile`
converts float amplitude to 16-bit PCM via `static_cast<int16_t>(sample *
32768)`, i.e. truncation of `sample * 32768` toward zero (floor for
nonnegative products, ceiling for negative ones) — not `round` — with no
explicit clamping of out-of-range values. -/
theorem C9_encoder_truncation_amended (wav : Waveform) (start num i : ℕ)
    (hi : i < num) :
    (WriteToWAVFile_samples wav start num).getD i 0
      = (if 0 ≤ wav.m_data.getD (start + i) 0 * 32768
         then ⌊wav.m_data.getD (start + i) 0 * 32768⌋
         else ⌈wav.m_data.getD (start + i) 0 * 32768⌉) := by
  unfold WriteToWAVFile_samples
  rw [getD_range_map _ _ _ i hi, float_to_int16_eq]

/-- Claim C9, as stated, is false: at sample value `0.6` the code writes
`trunc(0.6 * 32768) = trunc(19660.8) = 19660`, while `round(0.6 * 32768)`
would be `19661`. -/
theorem C9_counterexample :
    WriteToWAVFile_samples ⟨48000, [3 / 5]⟩ 0 1 = [19660] ∧
    WriteToWAVFile_samples_claim ⟨48000, [3 / 5]⟩ 0 1 = [19661] :=
  ⟨by with_unfolding_all decide, by with_unfolding_all decide⟩

/-- Witness for `C9_encoder_truncation_amended` at sample value `0.6`. -/
theorem C9_witness :
    (WriteToWAVFile_samples ⟨48000, [3 / 5]⟩ 0 1).getD 0 0
      = (if 0 ≤ (Waveform.mk 48000 [3 / 5]).m_data.getD (0 + 0) 0 * 32768
         then ⌊(Waveform.mk 48000 [3 / 5]).m_data.getD (0 + 0) 0 * 32768⌋
         else ⌈(Waveform.mk 48000 [3 / 5]).m_data.getD (0 + 0) 0 * 32768⌉) :=
  C9_encoder_truncation_amended ⟨48000, [3 / 5]⟩ 0 1 0 (by decide)

end SplitSpeech
